import Mathlib

/-!
Verification of the nemo selection-function / completeness engine
(`nemo/completeness.py`, `nemo/simsTools.py`) against its specification.

The embedding is shallow: tables become lists of records, numpy array
arithmetic becomes arithmetic over `ℚ` (for the exact, fully executable
parts: noise-table downsampling, argmin selection, the mass-conversion
iteration, cache dispatch, coordinate checks) or over `ℝ` (for the
completeness surface, which involves `log`, `sqrt`, powers and the normal
survival function).  External collaborators (filter-response spline `Q`,
`theta500` / `fRel` splines, `E(z)` from the cosmology grid, WCS/raster
lookups) enter as function parameters, exactly as they appear as opaque
inputs in the source.
-/

set_option maxHeartbeats 1600000

/-- A row of an RMS noise table: a noise level `y0RMS` together with the sky
area `areaDeg2` mapped to that noise level.  Mirrors the two columns of the
tables built by `getRMSTab` in `nemo/completeness.py`. -/
structure RMSRow (α : Type) where
  y0RMS : α
  areaDeg2 : α
deriving DecidableEq, Repr

/-- Sum of the `areaDeg2` column of a noise table (`RMSTab['areaDeg2'].sum()`). -/
def totalAreaQ (tab : List (RMSRow ℚ)) : ℚ :=
  (tab.map (fun r => r.areaDeg2)).sum

/-- `np.arange(start, stop, step)` over exact rationals (for `step > 0`):
the values `start + i*step` for `0 ≤ i < ⌈(stop - start)/step⌉`. -/
def arange (start stop step : ℚ) : List ℚ :=
  (List.range (Nat.ceil ((stop - start) / step))).map (fun i : ℕ => start + (i : ℚ) * step)

/-- `min` of the `y0RMS` column (`RMSTab['y0RMS'].min()`); `0` on an empty
table (where numpy would raise). -/
def minY0 (tab : List (RMSRow ℚ)) : ℚ :=
  match tab.map (fun r => r.y0RMS) with
  | [] => 0
  | x :: xs => xs.foldl min x

/-- `max` of the `y0RMS` column (`RMSTab['y0RMS'].max()`); `0` on an empty
table. -/
def maxY0 (tab : List (RMSRow ℚ)) : ℚ :=
  match tab.map (fun r => r.y0RMS) with
  | [] => 0
  | x :: xs => xs.foldl max x

/-- The rows of `tab` falling in bin `i` of `downsampleRMSTab`:
`binEdges[i] < y0RMS <= binEdges[i+1]` (note the strict lower bound, as in
the source's `np.logical_and(RMSTab['y0RMS'] > binEdges[i],
RMSTab['y0RMS'] <= binEdges[i+1])`). -/
def binRows (tab : List (RMSRow ℚ)) (binEdges : List ℚ) (i : ℕ) : List (RMSRow ℚ) :=
  tab.filter (fun r => decide (binEdges.getD i 0 < r.y0RMS) && decide (r.y0RMS ≤ binEdges.getD (i + 1) 0))

/-- `downsampleRMSTab(RMSTab, stepSize)` from `nemo/completeness.py`.

The function body overwrites the caller's `stepSize` with the fixed value
`0.001*1e-4 = 1e-7` (source line `stepSize=0.001*1e-4`), builds bin edges
with `np.arange(min, max+stepSize, stepSize)` — where `.min()` raises a
`ValueError` on an empty table — and for each non-empty bin emits the
area-weighted mean noise together with the summed area, skipping empty
bins.  The guard `mask.sum() > 0` counts matching rows, not their weight,
so `np.average` raises a `ZeroDivisionError` whenever some non-empty bin's
`areaDeg2` weights sum to zero; the call then returns no table at all
(modelled as `Except.error`). -/
def downsampleRMSTab (tab : List (RMSRow ℚ)) (stepSize : ℚ) :
    Except String (List (RMSRow ℚ)) :=
  let stepSize : ℚ := 1 / 10000000
  if tab = [] then .error "ValueError"
  else
    let binEdges := arange (minY0 tab) (maxY0 tab + stepSize) stepSize
    if (List.range (binEdges.length - 1)).any (fun i =>
        !(binRows tab binEdges i).isEmpty
          && decide (((binRows tab binEdges i).map (fun r => r.areaDeg2)).sum = 0)) then
      .error "ZeroDivisionError"
    else
      .ok ((List.range (binEdges.length - 1)).filterMap (fun i =>
        let rows := binRows tab binEdges i
        if rows = [] then none
        else some { y0RMS := (rows.map (fun r => r.y0RMS * r.areaDeg2)).sum
                      / (rows.map (fun r => r.areaDeg2)).sum,
                    areaDeg2 := (rows.map (fun r => r.areaDeg2)).sum }))

/-- Every `y0RMS` entry is at least the column minimum. -/
theorem foldl_min_le_init {α : Type} [LinearOrder α] (xs : List α) (x : α) :
    xs.foldl min x ≤ x := by
  induction xs generalizing x with
  | nil => simp
  | cons a t ih => exact le_trans (ih (min x a)) (min_le_left x a)

theorem foldl_min_le_mem {α : Type} [LinearOrder α] (xs : List α) (x y : α) :
    y ∈ xs → xs.foldl min x ≤ y := by
  induction xs generalizing x with
  | nil => intro hy; simp at hy
  | cons a t ih =>
    intro hy
    rcases List.mem_cons.mp hy with h | h
    · subst h
      exact le_trans (foldl_min_le_init t (min x y)) (min_le_right x y)
    · exact ih (min x a) h

theorem init_le_foldl_max {α : Type} [LinearOrder α] (xs : List α) (x : α) :
    x ≤ xs.foldl max x := by
  induction xs generalizing x with
  | nil => simp
  | cons a t ih => exact le_trans (le_max_left x a) (ih (max x a))

theorem mem_le_foldl_max {α : Type} [LinearOrder α] (xs : List α) (x y : α) :
    y ∈ xs → y ≤ xs.foldl max x := by
  induction xs generalizing x with
  | nil => intro hy; simp at hy
  | cons a t ih =>
    intro hy
    rcases List.mem_cons.mp hy with h | h
    · subst h
      exact le_trans (le_max_right x y) (init_le_foldl_max t (max x y))
    · exact ih (max x a) h

theorem minY0_le (tab : List (RMSRow ℚ)) (r : RMSRow ℚ) (hr : r ∈ tab) :
    minY0 tab ≤ r.y0RMS := by
  cases tab with
  | nil => simp at hr
  | cons a t =>
    rcases List.mem_cons.mp hr with h | h
    · subst h; exact foldl_min_le_init _ _
    · exact foldl_min_le_mem _ _ _ (List.mem_map_of_mem _ h)

theorem le_maxY0 (tab : List (RMSRow ℚ)) (r : RMSRow ℚ) (hr : r ∈ tab) :
    r.y0RMS ≤ maxY0 tab := by
  cases tab with
  | nil => simp at hr
  | cons a t =>
    rcases List.mem_cons.mp hr with h | h
    · subst h; exact init_le_foldl_max _ _
    · exact mem_le_foldl_max _ _ _ (List.mem_map_of_mem _ h)

theorem arange_length (a b s : ℚ) : (arange a b s).length = Nat.ceil ((b - a) / s) := by
  rw [arange, List.length_map, List.length_range]

theorem arange_getD (a b s : ℚ) (i : ℕ) (hi : i < Nat.ceil ((b - a) / s)) :
    (arange a b s).getD i 0 = a + i * s := by
  rw [arange, List.getD_eq_getElem?_getD, List.getElem?_map, List.getElem?_range hi]
  rfl

/-- Pull a `filter` into an `if` under the summed `map`. -/
theorem sum_map_filter (l : List (RMSRow ℚ)) (p : RMSRow ℚ → Bool) (g : RMSRow ℚ → ℚ) :
    ((l.filter p).map g).sum = (l.map (fun r => if p r then g r else 0)).sum := by
  induction l with
  | nil => simp
  | cons a t ih => cases hp : p a <;> simp [List.filter_cons, hp, ih]

/-- Pull a `filterMap` into a per-index contribution under the summed `map`. -/
theorem sum_map_filterMap (l : List ℕ) (f : ℕ → Option (RMSRow ℚ)) (g : RMSRow ℚ → ℚ) :
    ((l.filterMap f).map g).sum
      = (l.map (fun i => match f i with | none => 0 | some r => g r)).sum := by
  induction l with
  | nil => simp
  | cons a t ih => cases hf : f a <;> simp [List.filterMap_cons, hf, ih]

theorem list_range_sum (n : ℕ) (f : ℕ → ℚ) :
    ((List.range n).map f).sum = ∑ i in Finset.range n, f i := by
  induction n with
  | zero => simp
  | succ m ih => simp [List.range_succ, Finset.sum_range_succ, ih]

theorem finset_sum_list_sum_comm (s : Finset ℕ) (l : List (RMSRow ℚ)) (f : ℕ → RMSRow ℚ → ℚ) :
    ∑ i in s, (l.map (f i)).sum = (l.map (fun r => ∑ i in s, f i r)).sum := by
  induction l with
  | nil => simp
  | cons a t ih => simp [List.map_cons, List.sum_cons, Finset.sum_add_distrib, ih]

/-- A value strictly above the bottom edge falls into exactly one bin of the
uniform binning with edges `mn + i*step`; a value at the bottom edge falls
into none. -/
theorem bin_sum_single (mn step y a : ℚ) (hstep : 0 < step) (nB : ℕ)
    (hmem : mn < y → Nat.ceil ((y - mn) / step) ≤ nB) :
    (∑ i in Finset.range nB, if mn + i * step < y ∧ y ≤ mn + (i + 1) * step then a else 0)
      = if mn < y then a else 0 := by
  by_cases hy : mn < y
  · have hq : 0 < (y - mn) / step := div_pos (by linarith) hstep
    have hceil : 1 ≤ Nat.ceil ((y - mn) / step) := Nat.ceil_pos.mpr hq
    rw [if_pos hy]
    have hcast : ((Nat.ceil ((y - mn) / step) - 1 : ℕ) : ℚ)
        = (Nat.ceil ((y - mn) / step) : ℚ) - 1 := by
      push_cast [Nat.cast_sub hceil]; ring
    rw [Finset.sum_eq_single (Nat.ceil ((y - mn) / step) - 1)]
    · rw [if_pos]
      constructor
      · have h2 : ((Nat.ceil ((y - mn) / step) : ℚ) - 1) < (y - mn) / step := by
          by_contra hcon
          push_neg at hcon
          have : Nat.ceil ((y - mn) / step) ≤ Nat.ceil ((y - mn) / step) - 1 := by
            have hle : (y - mn) / step ≤ ((Nat.ceil ((y - mn) / step) - 1 : ℕ) : ℚ) := by
              rw [hcast]; exact hcon
            simpa using Nat.ceil_le.mpr hle
          omega
        rw [hcast]
        rw [lt_div_iff hstep] at h2
        linarith
      · have h3 : (y - mn) / step ≤ (Nat.ceil ((y - mn) / step) : ℚ) := Nat.le_ceil _
        rw [div_le_iff hstep] at h3
        rw [hcast]
        linarith
    · intro j hj hjne
      rw [if_neg]
      rintro ⟨hlo, hhi⟩
      have hjq : (j : ℚ) < (y - mn) / step := by
        rw [lt_div_iff hstep]; linarith
      have hqj : (y - mn) / step ≤ (j + 1 : ℕ) := by
        rw [div_le_iff hstep]; push_cast; linarith
      have : Nat.ceil ((y - mn) / step) = j + 1 := by
        rw [Nat.ceil_eq_iff (Nat.succ_ne_zero j)]
        constructor
        · simpa using hjq
        · simpa using hqj
      omega
    · intro hnot
      exfalso
      apply hnot
      have := hmem hy
      exact Finset.mem_range.mpr (by omega)
  · rw [if_neg hy]
    apply Finset.sum_eq_zero
    intro i _
    rw [if_neg]
    rintro ⟨hlo, _⟩
    have : (0 : ℚ) ≤ (i : ℚ) * step := mul_nonneg (Nat.cast_nonneg i) (le_of_lt hstep)
    exact hy (by linarith)

/-- Claim C2, amended: `downsampleRMSTab` does NOT preserve total area in
general.  Whenever the call actually returns a table (it raises instead if
the input is empty or some non-empty bin carries zero total area, since
`np.average`'s weight sum is then zero), the output total area equals the
input area summed over rows whose noise level strictly exceeds the column
minimum: every bin uses a strict lower bound `y0RMS > binEdges[i]` and the
first bin edge equals `min(y0RMS)`, so exactly the rows sitting at the
minimum noise level are dropped, while all other rows land in exactly one
bin. -/
theorem c2_area_after_downsample (tab : List (RMSRow ℚ)) (s : ℚ) (t : List (RMSRow ℚ))
    (hok : downsampleRMSTab tab s = .ok t) :
    totalAreaQ t
      = ((tab.filter (fun r => decide (minY0 tab < r.y0RMS))).map (fun r => r.areaDeg2)).sum := by
  simp only [downsampleRMSTab] at hok
  split at hok
  next h0 => exact absurd hok (by simp)
  next h0 =>
  split at hok
  next hguard => exact absurd hok (by simp)
  next hguard =>
  have hne : tab ≠ [] := h0
  have ht := Except.ok.inj hok
  have hstep : (0 : ℚ) < 1 / 10000000 := by norm_num
  have hmnmx : minY0 tab ≤ maxY0 tab := by
    cases tab with
    | nil => exact absurd rfl hne
    | cons r t =>
      exact le_trans (minY0_le _ r (List.mem_cons_self r t)) (le_maxY0 _ r (List.mem_cons_self r t))
  have hq0 : (0 : ℚ) ≤ (maxY0 tab - minY0 tab) / (1 / 10000000) := by
    apply div_nonneg (by linarith) (le_of_lt hstep)
  have hceil_n : Nat.ceil ((maxY0 tab + 1 / 10000000 - minY0 tab) / (1 / 10000000))
      = Nat.ceil ((maxY0 tab - minY0 tab) / (1 / 10000000)) + 1 := by
    have heq : (maxY0 tab + 1 / 10000000 - minY0 tab) / (1 / 10000000)
        = (maxY0 tab - minY0 tab) / (1 / 10000000) + 1 := by
      field_simp
      ring
    rw [heq, Nat.ceil_add_one hq0]
  have key : totalAreaQ t
      = ((List.range ((arange (minY0 tab) (maxY0 tab + 1 / 10000000) (1 / 10000000)).length - 1)).map
          (fun i => ((binRows tab (arange (minY0 tab) (maxY0 tab + 1 / 10000000) (1 / 10000000)) i).map
            (fun r => r.areaDeg2)).sum)).sum := by
    rw [← ht, totalAreaQ, sum_map_filterMap]
    refine congrArg List.sum (List.map_congr_left ?_)
    intro i _
    by_cases h : binRows tab (arange (minY0 tab) (maxY0 tab + 1 / 10000000) (1 / 10000000)) i = []
    · rw [if_pos h, h]
      simp
    · rw [if_neg h]
  rw [key, list_range_sum]
  have hbin : ∀ i, ((binRows tab (arange (minY0 tab) (maxY0 tab + 1 / 10000000) (1 / 10000000)) i).map
        (fun r => r.areaDeg2)).sum
      = (tab.map (fun r =>
          if (decide ((arange (minY0 tab) (maxY0 tab + 1 / 10000000) (1 / 10000000)).getD i 0 < r.y0RMS)
              && decide (r.y0RMS ≤ (arange (minY0 tab) (maxY0 tab + 1 / 10000000) (1 / 10000000)).getD (i + 1) 0))
          then r.areaDeg2 else 0)).sum := by
    intro i
    exact sum_map_filter _ _ _
  simp only [hbin]
  rw [finset_sum_list_sum_comm, sum_map_filter]
  refine congrArg List.sum (List.map_congr_left ?_)
  intro r hr
  have hnB : (arange (minY0 tab) (maxY0 tab + 1 / 10000000) (1 / 10000000)).length - 1
      = Nat.ceil ((maxY0 tab - minY0 tab) / (1 / 10000000)) := by
    rw [arange_length, hceil_n]
    omega
  rw [hnB]
  have hstep' : ∀ i : ℕ, i < Nat.ceil ((maxY0 tab - minY0 tab) / (1 / 10000000)) →
      ((arange (minY0 tab) (maxY0 tab + 1 / 10000000) (1 / 10000000)).getD i 0
          = minY0 tab + (i : ℚ) * (1 / 10000000)
        ∧ (arange (minY0 tab) (maxY0 tab + 1 / 10000000) (1 / 10000000)).getD (i + 1) 0
          = minY0 tab + ((i : ℚ) + 1) * (1 / 10000000)) := by
    intro i hi
    constructor
    · exact arange_getD _ _ _ i (by rw [hceil_n]; omega)
    · rw [arange_getD _ _ _ (i + 1) (by rw [hceil_n]; omega)]
      push_cast
      ring
  have hmain : (∑ i in Finset.range (Nat.ceil ((maxY0 tab - minY0 tab) / (1 / 10000000))),
        if (decide ((arange (minY0 tab) (maxY0 tab + 1 / 10000000) (1 / 10000000)).getD i 0 < r.y0RMS)
            && decide (r.y0RMS ≤ (arange (minY0 tab) (maxY0 tab + 1 / 10000000) (1 / 10000000)).getD (i + 1) 0))
        then r.areaDeg2 else 0)
      = ∑ i in Finset.range (Nat.ceil ((maxY0 tab - minY0 tab) / (1 / 10000000))),
        if minY0 tab + (i : ℚ) * (1 / 10000000) < r.y0RMS
            ∧ r.y0RMS ≤ minY0 tab + ((i : ℚ) + 1) * (1 / 10000000)
        then r.areaDeg2 else 0 := by
    refine Finset.sum_congr rfl ?_
    intro i hi
    rcases hstep' i (Finset.mem_range.mp hi) with ⟨h1, h2⟩
    rw [h1, h2]
    simp [Bool.and_eq_true, decide_eq_true_eq]
  rw [hmain, bin_sum_single _ _ _ _ hstep _ ?_]
  · simp [decide_eq_true_eq]
  · intro hy
    apply Nat.ceil_mono
    have hyx : r.y0RMS ≤ maxY0 tab := le_maxY0 tab r hr
    exact (div_le_div_iff_of_pos_right hstep).mpr (by linarith)

/-- Evaluation of `downsampleRMSTab` on the one-row table `[(1e-7, 1)]`:
min = max, so there is a single bin edge and no bins at all; no bin is
non-empty, so the call returns (no `ZeroDivisionError`) with the empty
table. -/
theorem downsample_single_eval :
    downsampleRMSTab [⟨1/10000000, 1⟩] (1/10000000) = .ok [] := by
  have h1 : ((1:ℚ)/10000000 + 1/10000000 - 1/10000000) / (1/10000000) = 1 := by norm_num
  have hr : List.range 1 = [0] := rfl
  have h2 : arange (minY0 [⟨1/10000000, 1⟩]) (maxY0 [⟨1/10000000, 1⟩] + 1/10000000) (1/10000000)
      = [1/10000000] := by
    simp [arange, minY0, maxY0, h1, hr]
  simp only [downsampleRMSTab]
  rw [h2]
  simp

/-- Evaluation of `downsampleRMSTab` on the two-row table
`[(1e-7, 1), (2e-7, 2)]`: one bin `(1e-7, 2e-7]` containing only the second
row (positive area `2`, so no `ZeroDivisionError`), whose area-weighted
mean noise is `2e-7`. -/
theorem downsample_pair_eval :
    downsampleRMSTab [⟨1/10000000, 1⟩, ⟨2/10000000, 2⟩] (5/10000000)
      = .ok [⟨2/10000000, 2⟩] := by
  have hceil : ((2:ℚ)/10000000 + 1/10000000 - 1/10000000) / (1/10000000) = 2 := by norm_num
  have hmin : minY0 [⟨1/10000000, 1⟩, ⟨2/10000000, 2⟩] = 1/10000000 := by
    show min ((1:ℚ)/10000000) (2/10000000) = 1/10000000
    exact min_eq_left (by norm_num)
  have hmax : maxY0 [⟨1/10000000, 1⟩, ⟨2/10000000, 2⟩] = 2/10000000 := by
    show max ((1:ℚ)/10000000) (2/10000000) = 2/10000000
    exact max_eq_right (by norm_num)
  have hr2 : List.range 2 = [0, 1] := rfl
  have h2 : arange (minY0 [⟨1/10000000, 1⟩, ⟨2/10000000, 2⟩])
      (maxY0 [⟨1/10000000, 1⟩, ⟨2/10000000, 2⟩] + 1/10000000) (1/10000000)
      = [1/10000000, 2/10000000] := by
    rw [hmin, hmax, arange, hceil]
    norm_num [hr2]
  have hr1 : List.range 1 = [0] := rfl
  simp only [downsampleRMSTab]
  rw [h2]
  norm_num [hr1, binRows, List.filter_cons, List.filter_nil, List.getD_cons_zero,
    List.getD_cons_succ, List.filterMap_cons, List.filterMap_nil, RMSRow.mk.injEq]
  intro hcontra
  exact absurd hcontra (by simp)

/-- Claim C2, witness for the amended statement: on the two-row table the
call returns a table, and its total area equals the input area of the rows
strictly above the minimum noise level (here `2`, versus input total `3`). -/
theorem c2_witness :
    downsampleRMSTab [⟨1/10000000, 1⟩, ⟨2/10000000, 2⟩] (5/10000000)
        = .ok [⟨2/10000000, 2⟩]
      ∧ totalAreaQ [(⟨2/10000000, 2⟩ : RMSRow ℚ)]
        = ((([⟨1/10000000, 1⟩, ⟨2/10000000, 2⟩] : List (RMSRow ℚ)).filter
            (fun r => decide (minY0 [⟨1/10000000, 1⟩, ⟨2/10000000, 2⟩] < r.y0RMS))).map
          (fun r => r.areaDeg2)).sum
      ∧ totalAreaQ [(⟨2/10000000, 2⟩ : RMSRow ℚ)] = 2 :=
  ⟨downsample_pair_eval,
    c2_area_after_downsample _ _ _ downsample_pair_eval,
    by norm_num [totalAreaQ]⟩

/-- Claim C2, counterexample: for the single-row table with positive noise
level `1e-7` and area `1`, the bin mask `y0RMS > binEdges[0]` excludes the
row attaining the minimum noise value, so the call returns the empty table
and the total area drops from `1` to `0` — the totals differ by the whole
input area, not by a floating tolerance. -/
theorem c2_counterexample :
    downsampleRMSTab [⟨1/10000000, 1⟩] (1/10000000) = .ok [] ∧
      totalAreaQ ([] : List (RMSRow ℚ)) = 0 ∧
      totalAreaQ [(⟨1/10000000, 1⟩ : RMSRow ℚ)] = 1 := by
  refine ⟨downsample_single_eval, by simp [totalAreaQ], by simp [totalAreaQ]⟩

/-- Claim C10: `downsampleRMSTab` ignores its `stepSize` argument — the body
overwrites it with the fixed value `0.001*1e-4` (line `stepSize=0.001*1e-4`),
so for any input table the output is identical for any two caller-supplied
step sizes. -/
theorem c10_stepSize_ignored (tab : List (RMSRow ℚ)) (s1 s2 : ℚ) :
    downsampleRMSTab tab s1 = downsampleRMSTab tab s2 := rfl

/-- Convergence tolerance of `convertM500cToM200m` (`tolerance=1e-5`). -/
def mdcTol : ℚ := 1 / 100000

/-- The scale-factor iterates of `convertM500cToM200m` in `nemo/simsTools.py`:
`sSeq 0 = 3` (the starting `scaleFactor=3.0`) and
`sSeq (k+1) = sSeq k * (M500c / F (sSeq k * M500c))`, where `F` abstracts the
first component of `convertM200mToM500c` at the fixed redshift of the call.
`sSeq k` is the value of `scaleFactor` after `k` loop iterations. -/
def sSeq (F : ℚ → ℚ) (M500c : ℚ) : ℕ → ℚ
  | 0 => 3
  | k + 1 => sSeq F M500c k * (M500c / F (sSeq F M500c k * M500c))

/-- The ratio computed in loop iteration `k+1` of `convertM500cToM200m`:
`ratioSeq k = M500c / F (sSeq k * M500c)` (`ratio=M500c/testM500c`). -/
def ratioSeq (F : ℚ → ℚ) (M500c : ℚ) (k : ℕ) : ℚ :=
  M500c / F (sSeq F M500c k * M500c)

/-- The `while abs(1.0-ratio) > tolerance` loop of `convertM500cToM200m`,
with the remaining permitted loop-body executions as fuel.  Each body
computes `testM500c = F(scaleFactor*M500c)`, `ratio = M500c/testM500c`,
`scaleFactor = scaleFactor*ratio`; the `count > 10` check raises once the
body has run ten times without the while-condition turning false
(the model's `Except.error ()` stands for the raised exception). -/
def mdcLoop (F : ℚ → ℚ) (M500c : ℚ) : ℕ → ℚ → ℚ → Except Unit ℚ
  | 0, s, r => if |1 - r| ≤ mdcTol then .ok (s * M500c) else .error ()
  | fuel + 1, s, r =>
    if |1 - r| ≤ mdcTol then .ok (s * M500c)
    else
      let rNew := M500c / F (s * M500c)
      mdcLoop F M500c fuel (s * rNew) rNew

/-- `convertM500cToM200m(M500c, z)` from `nemo/simsTools.py`, with the
redshift-dependent forward conversion `convertM200mToM500c(·, z)` abstracted
as `F`.  Initial state: `scaleFactor=3.0`, `ratio=1e6`, at most ten loop
bodies before the `count > 10` exception fires. -/
def convertM500cToM200m (F : ℚ → ℚ) (M500c : ℚ) : Except Unit ℚ :=
  mdcLoop F M500c 10 3 1000000

theorem mdcLoop_error (F : ℚ → ℚ) (M500c : ℚ) (fuel j0 : ℕ)
    (h : ∀ i, j0 ≤ i → i ≤ j0 + fuel → mdcTol < |1 - ratioSeq F M500c i|) :
    mdcLoop F M500c fuel (sSeq F M500c (j0 + 1)) (ratioSeq F M500c j0) = .error () := by
  induction fuel generalizing j0 with
  | zero =>
    rw [mdcLoop, if_neg]
    exact not_le.mpr (h j0 le_rfl (by omega))
  | succ m ih =>
    rw [mdcLoop, if_neg (not_le.mpr (h j0 le_rfl (by omega)))]
    exact ih (j0 + 1) (fun i hi hi2 => h i (by omega) (by omega))

theorem mdcLoop_ok (F : ℚ → ℚ) (M500c : ℚ) (fuel j0 j : ℕ)
    (hj0 : j0 ≤ j) (hj : j ≤ j0 + fuel)
    (hconv : |1 - ratioSeq F M500c j| ≤ mdcTol)
    (hbefore : ∀ i, j0 ≤ i → i < j → mdcTol < |1 - ratioSeq F M500c i|) :
    mdcLoop F M500c fuel (sSeq F M500c (j0 + 1)) (ratioSeq F M500c j0)
      = .ok (sSeq F M500c (j + 1) * M500c) := by
  induction fuel generalizing j0 with
  | zero =>
    have hj0j : j = j0 := by omega
    subst hj0j
    rw [mdcLoop, if_pos hconv]
  | succ m ih =>
    by_cases hje : j = j0
    · subst hje
      rw [mdcLoop, if_pos hconv]
    · rw [mdcLoop, if_neg (not_le.mpr (hbefore j0 le_rfl (by omega)))]
      exact ih (j0 + 1) (by omega) (by omega) (fun i hi hi2 => hbefore i (by omega) hi2)

/-- Claim C6: `convertM500cToM200m` performs the iterative scalar search
(start scale factor `3.0`, repeatedly apply the forward conversion `F` to
`scaleFactor*M500c` and multiply the scale factor by `M500c/F(...)`).  It
raises the convergence exception exactly when none of the ten permitted
iterations brings the ratio within `1e-5` of `1`; otherwise, at the first
iteration `j+1` whose ratio converges, it returns the updated
`scaleFactor*M500c` (namely `sSeq (j+1) * M500c`) without error. -/
theorem c6_conversion_loop (F : ℚ → ℚ) (M500c : ℚ) :
    ((∀ j, j < 10 → mdcTol < |1 - ratioSeq F M500c j|) →
        convertM500cToM200m F M500c = .error ()) ∧
      (∀ j, j < 10 → |1 - ratioSeq F M500c j| ≤ mdcTol →
        (∀ i, i < j → mdcTol < |1 - ratioSeq F M500c i|) →
        convertM500cToM200m F M500c = .ok (sSeq F M500c (j + 1) * M500c)) := by
  have hinit : ¬ (|1 - (1000000 : ℚ)| ≤ mdcTol) := by norm_num [mdcTol]
  have hstep : convertM500cToM200m F M500c
      = mdcLoop F M500c 9 (sSeq F M500c 1) (ratioSeq F M500c 0) := by
    rw [convertM500cToM200m, mdcLoop, if_neg hinit]
    rfl
  constructor
  · intro hall
    rw [hstep]
    exact mdcLoop_error F M500c 9 0 (fun i _ hi2 => hall i (by omega))
  · intro j hj hconv hbefore
    rw [hstep]
    exact mdcLoop_ok F M500c 9 0 j (by omega) (by omega) hconv
      (fun i _ hi2 => hbefore i hi2)

/-- Claim C6, witness: with the identity forward conversion and `M500c = 1`,
iteration 1 has `ratio = 1/3` (not converged) and iteration 2 has
`ratio = 1` (converged), so the call returns `sSeq 2 * 1` without error. -/
theorem c6_witness :
    convertM500cToM200m (fun m => m) 1 = .ok (sSeq (fun m => m) 1 2 * 1) := by
  apply (c6_conversion_loop (fun m => m) 1).2 1 (by omega)
  · norm_num [ratioSeq, sSeq, mdcTol, abs_zero]
  · intro i hi
    interval_cases i
    have h0 : ratioSeq (fun m => m) 1 0 = 1/3 := by norm_num [ratioSeq, sSeq]
    rw [h0, show |1 - (1:ℚ)/3| = 2/3 from by rw [abs_of_pos] <;> norm_num]
    norm_num [mdcTol]

/-- `np.argmin` over a list: the index of the first occurrence of the list
minimum (numpy's tie-break).  `0` on the empty list (numpy raises there). -/
def argminIdx {α : Type} [LinearOrder α] : List α → ℕ
  | [] => 0
  | x :: xs => (x :: xs).findIdx (fun y => decide (y = xs.foldl min x))

theorem foldlMin_mem {α : Type} [LinearOrder α] (xs : List α) (x : α) :
    xs.foldl min x ∈ x :: xs := by
  induction xs generalizing x with
  | nil => simp
  | cons a t ih =>
    show List.foldl min (min x a) t ∈ x :: a :: t
    rcases List.mem_cons.mp (ih (min x a)) with h1 | h1
    · rcases min_choice x a with hc | hc
      · rw [h1, hc]; exact List.mem_cons_self _ _
      · rw [h1, hc]; exact List.mem_cons_of_mem _ (List.mem_cons_self _ _)
    · exact List.mem_cons_of_mem _ (List.mem_cons_of_mem _ h1)

theorem argminIdx_lt_length {α : Type} [LinearOrder α] (l : List α) (hne : l ≠ []) :
    argminIdx l < l.length := by
  cases l with
  | nil => exact absurd rfl hne
  | cons x xs =>
    apply List.findIdx_lt_length_of_exists
    exact ⟨xs.foldl min x, foldlMin_mem xs x, by simp⟩

theorem argminIdx_le {α : Type} [LinearOrder α] (l : List α) (hne : l ≠ []) (d : α)
    (k : ℕ) (hk : k < l.length) : l.getD (argminIdx l) d ≤ l.getD k d := by
  cases l with
  | nil => exact absurd rfl hne
  | cons x xs =>
    have hlt : argminIdx (x :: xs) < (x :: xs).length := argminIdx_lt_length _ hne
    have hval : (x :: xs).get ⟨argminIdx (x :: xs), hlt⟩ = xs.foldl min x := by
      have := List.findIdx_get (p := fun y => decide (y = xs.foldl min x)) (w := hlt)
      simpa using this
    have hgd : (x :: xs).getD (argminIdx (x :: xs)) d = xs.foldl min x := by
      rw [List.getD_eq_getElem?_getD, List.getElem?_eq_getElem hlt]
      simpa using hval
    rw [hgd, List.getD_eq_getElem?_getD, List.getElem?_eq_getElem hk]
    rcases List.mem_cons.mp (List.getElem_mem hk) with h | h
    · rw [Option.getD_some, h]
      exact foldl_min_le_init xs x
    · exact foldl_min_le_mem xs x _ h

/-- `calcMassLimit` (no `zBinEdges` given) from `nemo/completeness.py`, one
redshift column at a time:
`np.power(10, mockSurvey.log10M[np.argmin(abs(compMz-completenessFraction), axis=1)])/1e14`.
The completeness row and the fraction are exact rationals (floats embed in
`ℚ`); the mass axis and the power are real. -/
noncomputable def calcMassLimitRow (fraction : ℚ) (row : List ℚ) (log10M : List ℝ) : ℝ :=
  (10 : ℝ) ^ (log10M.getD (argminIdx (row.map (fun c => |c - fraction|))) 0) / 100000000000000

/-- `calcMassLimit` over the whole surface: one mass-limit value per
redshift row of `compMz`. -/
noncomputable def calcMassLimit (fraction : ℚ) (compMz : List (List ℚ)) (log10M : List ℝ) :
    List ℝ :=
  compMz.map (fun row => calcMassLimitRow fraction row log10M)

theorem getD_map_abs (row : List ℚ) (fraction : ℚ) (j : ℕ) (hj : j < row.length) :
    (row.map (fun c => |c - fraction|)).getD j 0 = |row.getD j 0 - fraction| := by
  rw [List.getD_eq_getElem?_getD, List.getElem?_map, List.getElem?_eq_getElem hj,
    List.getD_eq_getElem?_getD, List.getElem?_eq_getElem hj]
  rfl

/-- Claim C5: for every completeness row and target fraction,
`calcMassLimit` (without `zBinEdges`) selects the grid mass whose
completeness is closest to the fraction — a nearest grid value, not an
interpolated one.  The returned entry, multiplied by `1e14`, is `10` raised
to an element of the grid's `log10M` axis (the element at the argmin
index). -/
theorem c5_mass_limit_on_grid (fraction : ℚ) (row : List ℚ) (log10M : List ℝ)
    (hne : row ≠ []) (hlen : log10M.length = row.length) :
    ∃ j, j < log10M.length
      ∧ (∀ k, k < row.length → |row.getD j 0 - fraction| ≤ |row.getD k 0 - fraction|)
      ∧ calcMassLimitRow fraction row log10M * 100000000000000 = (10 : ℝ) ^ (log10M.getD j 0)
      ∧ log10M.getD j 0 ∈ log10M := by
  have hmapne : row.map (fun c => |c - fraction|) ≠ [] := by
    simpa using hne
  have hmaplen : (row.map (fun c => |c - fraction|)).length = row.length := List.length_map _ _
  have hjlt : argminIdx (row.map (fun c => |c - fraction|)) < row.length := by
    have := argminIdx_lt_length _ hmapne
    rwa [hmaplen] at this
  refine ⟨argminIdx (row.map (fun c => |c - fraction|)), by omega, ?_, ?_, ?_⟩
  · intro k hk
    have h := argminIdx_le (row.map (fun c => |c - fraction|)) hmapne 0 k (by omega)
    rwa [getD_map_abs row fraction _ hjlt, getD_map_abs row fraction k hk] at h
  · rw [calcMassLimitRow]
    field_simp
  · have hj2 : argminIdx (row.map (fun c => |c - fraction|)) < log10M.length := by omega
    rw [List.getD_eq_getElem?_getD, List.getElem?_eq_getElem hj2]
    exact List.getElem_mem hj2

/-- Claim C5, witness: on the row `[1/2, 9/10]` with fraction `9/10` and
mass axis `[14, 15]`, the selected entry is a grid value. -/
theorem c5_witness :
    ∃ j, j < [(14 : ℝ), 15].length
      ∧ (∀ k, k < [(1 : ℚ)/2, 9/10].length →
          |[(1 : ℚ)/2, 9/10].getD j 0 - 9/10| ≤ |[(1 : ℚ)/2, 9/10].getD k 0 - 9/10|)
      ∧ calcMassLimitRow (9/10) [(1 : ℚ)/2, 9/10] [(14 : ℝ), 15] * 100000000000000
          = (10 : ℝ) ^ ([(14 : ℝ), 15].getD j 0)
      ∧ [(14 : ℝ), 15].getD j 0 ∈ [(14 : ℝ), 15] :=
  c5_mass_limit_on_grid (9/10) [(1 : ℚ)/2, 9/10] [(14 : ℝ), 15] (by simp) (by simp)

/-- Abstract per-pixel raster inputs for building an RMS table: each pixel
contributes its RMS-map value and its area in square degrees (the product
`maps.getPixelAreaArcmin2Map(areaMap, wcs)*areaMap/(60**2)`, already
footprint-intersected when a footprint is in play). -/
def RasterPixels : Type := List (ℚ × ℚ)

/-- The build path of `getRMSTab` (lines `RMSValues=np.unique(...)` through
`RMSTab.write`): the distinct nonzero RMS values, in ascending order
(`np.unique` sorts), each with the summed pixel area of the matching
pixels. -/
def buildRMSTab (pixels : RasterPixels) : List (RMSRow ℚ) :=
  (((pixels.map (fun p => p.1)).filter (fun v => decide (v ≠ 0))).dedup.mergeSort (fun a b => decide (a ≤ b))).map
    (fun v => { y0RMS := v,
                areaDeg2 := ((pixels.filter (fun p => decide (p.1 = v))).map (fun p => p.2)).sum })

/-- `getRMSTab(tileName, photFilterLabel, selFnDir, diagnosticsDir, footprintLabel)`
from `nemo/completeness.py`, with the filesystem abstracted: `cachedGlobal`
models the combined `RMSTab[_footprint].fits` (rows tagged with tile names),
`cachedTile` models the per-tile `RMSTab_tileName[_footprint].fits`, and
`diagnosticsDir` models the optional raster inputs needed for a rebuild.
The source returns the global table filtered to the tile if present, else
the per-tile table, else — when `diagnosticsDir is None` — it returns
Python `None` (modelled `Except.ok none`) rather than raising; only with
raster inputs does it build a fresh table. -/
def getRMSTab (tileName : String) (cachedGlobal : Option (List (String × RMSRow ℚ)))
    (cachedTile : Option (List (RMSRow ℚ))) (diagnosticsDir : Option RasterPixels) :
    Except String (Option (List (RMSRow ℚ))) :=
  match cachedGlobal with
  | some gt => .ok (some ((gt.filter (fun p => decide (p.1 = tileName))).map (fun p => p.2)))
  | none =>
    match cachedTile with
    | some t => .ok (some t)
    | none =>
      match diagnosticsDir with
      | none => .ok none
      | some pixels => .ok (some (buildRMSTab pixels))

/-- Claim C8, counterexample: with no cached table of either kind and no
raster inputs, `getRMSTab` does not fail — it returns normally with Python
`None` (the deliberate skip path for footprints with no overlap), so the
claimed error is never raised. -/
theorem c8_counterexample :
    getRMSTab "1_10_8" none none none = .ok none ∧
      ∀ e : String, getRMSTab "1_10_8" none none none ≠ .error e := by
  constructor
  · rfl
  · intro e h
    simp [getRMSTab] at h

/-- Claim C8, amended: for every tile, if no cached noise table exists for
the key and no raster inputs are supplied, `getRMSTab` returns `None` (a
non-table sentinel the caller must check, used to skip footprints with no
overlap) instead of failing. -/
theorem c8_returns_none (tileName : String) :
    getRMSTab tileName none none none = .ok none := rfl

/-- A numpy-style argument that is either a scalar or a 1-d array
(`np.array(x)` followed by the `shape == ()` check in
`checkCoordsInAreaMask`). -/
inductive NpArg where
  | scalar (x : ℚ)
  | arr (xs : List ℚ)
deriving DecidableEq, Repr

/-- `np.array(RADeg)` /  list-wrapping step: a scalar becomes the one-element
list `[RADeg]`, an array stays as is. -/
def NpArg.toList : NpArg → List ℚ
  | .scalar x => [x]
  | .arr xs => xs

/-- A numpy-style return value: scalar boolean or boolean array. -/
inductive NpBools where
  | scalar (b : Bool)
  | arr (bs : List Bool)
deriving DecidableEq, Repr

/-- One row of the lazily built tile-bounds table (`self.tileTab`), together
with the per-tile mask lookup `areaMaskDict[tileName][int(y), int(x)] > 0`
composed with `wcs2pix` (external raster/WCS collaborators). -/
structure TileBounds where
  RAMin : ℚ
  RAMax : ℚ
  decMin : ℚ
  decMax : ℚ
  maskAt : ℚ → ℚ → Bool

/-- The per-point body of `checkCoordsInAreaMask`: a point is in the mask if
some tile whose bounding box contains it (`RAMin ≤ ra < RAMax`,
`decMin ≤ dec < decMax`) has a positive area-mask value at the pixel. -/
def pointInAreaMask (tiles : List TileBounds) (ra dec : ℚ) : Bool :=
  tiles.any (fun t =>
    decide (t.RAMin ≤ ra) && decide (ra < t.RAMax) &&
    decide (t.decMin ≤ dec) && decide (dec < t.decMax) && t.maskAt ra dec)

/-- `SelFn.checkCoordsInAreaMask(RADeg, decDeg)`: both arguments are
list-ified, zipped, and mapped through the per-point check; the result is
returned as an array only when more than one point was checked
(`if len(inMaskList) > 1`), else as the single boolean `inMaskList[0]`
(an `IndexError` — modelled as `Except.error` — when both inputs are empty
arrays). -/
def checkCoordsInAreaMask (tiles : List TileBounds) (RADeg decDeg : NpArg) :
    Except String NpBools :=
  let inMaskList := ((RADeg.toList).zip (decDeg.toList)).map
    (fun p => pointInAreaMask tiles p.1 p.2)
  if 1 < inMaskList.length then .ok (.arr inMaskList)
  else
    match inMaskList with
    | [] => .error "IndexError"
    | b :: _ => .ok (.scalar b)

/-- Claim C9, counterexample: a length-1 array input produces a scalar
boolean, not a boolean array of length 1 — the code branches on the number
of points checked, not on the form of the input. -/
theorem c9_counterexample :
    checkCoordsInAreaMask [] (.arr [0]) (.arr [0]) = .ok (.scalar false) ∧
      ∀ bs : List Bool, checkCoordsInAreaMask [] (.arr [0]) (.arr [0]) ≠ .ok (.arr bs) := by
  constructor
  · rfl
  · intro bs h
    simp [checkCoordsInAreaMask, pointInAreaMask, NpArg.toList] at h

/-- Claim C9, amended: a single `(RA, dec)` scalar pair yields a single
boolean; equal-length array inputs of length at least `2` yield a boolean
array of the same length; but a length-1 array pair yields a scalar
boolean (the counterexample's case). -/
theorem c9_vectorization (tiles : List TileBounds) (ra dec : ℚ) (ras decs : List ℚ)
    (h2 : 2 ≤ ras.length) (hlen : decs.length = ras.length) :
    (∃ b, checkCoordsInAreaMask tiles (.scalar ra) (.scalar dec) = .ok (.scalar b))
      ∧ (∃ bs, checkCoordsInAreaMask tiles (.arr ras) (.arr decs) = .ok (.arr bs)
          ∧ bs.length = ras.length) := by
  constructor
  · exact ⟨pointInAreaMask tiles ra dec, rfl⟩
  · refine ⟨((ras.zip decs).map (fun p => pointInAreaMask tiles p.1 p.2)), ?_, ?_⟩
    · have hc : 1 < ((((NpArg.arr ras).toList).zip ((NpArg.arr decs).toList)).map
          (fun p => pointInAreaMask tiles p.1 p.2)).length := by
        simp only [NpArg.toList, List.length_map, List.length_zip]
        omega
      rw [checkCoordsInAreaMask, if_pos hc]
      rfl
    · rw [List.length_map, List.length_zip]
      show min _ _ = _
      omega

/-- Claim C9, witness for the amended statement: scalar input gives a
scalar, and a 2-point array input gives a length-2 boolean array. -/
theorem c9_witness :
    (∃ b, checkCoordsInAreaMask [] (.scalar 0) (.scalar 0) = .ok (.scalar b))
      ∧ (∃ bs, checkCoordsInAreaMask [] (.arr [0, 1]) (.arr [2, 3]) = .ok (.arr bs)
          ∧ bs.length = [(0 : ℚ), 1].length) :=
  c9_vectorization [] 0 0 [0, 1] [2, 3] (by simp) (by simp)

/-- Standard normal survival function `scipy.stats.norm.sf` at standardized
argument `t`: the upper-tail Gaussian probability
`(∫ exp(-u²/2) over [t, ∞)) / √(2π)`. -/
noncomputable def stdNormSF (t : ℝ) : ℝ :=
  (∫ u in Set.Ici t, Real.exp (-u ^ 2 / 2)) / Real.sqrt (2 * Real.pi)

/-- `scipy.stats.norm.sf(x, loc, scale)`: the survival probability of a
normal distribution with the given mean and (positive) standard deviation,
expressed through the standardized survival function. -/
noncomputable def normSF (x loc scale : ℝ) : ℝ :=
  stdNormSF ((x - loc) / scale)

theorem gaussian_integrable :
    MeasureTheory.Integrable (fun u : ℝ => Real.exp (-u ^ 2 / 2)) := by
  have h : (fun u : ℝ => Real.exp (-u ^ 2 / 2))
      = fun u : ℝ => Real.exp (-(1/2 : ℝ) * u ^ 2) := by
    funext u
    ring_nf
  rw [h]
  exact integrable_exp_neg_mul_sq (by norm_num)

theorem gaussian_total :
    (∫ u : ℝ, Real.exp (-u ^ 2 / 2)) = Real.sqrt (2 * Real.pi) := by
  have h : (fun u : ℝ => Real.exp (-u ^ 2 / 2))
      = fun u : ℝ => Real.exp (-(1/2 : ℝ) * u ^ 2) := by
    funext u
    ring_nf
  rw [h, integral_gaussian]
  congr 1
  rw [eq_comm, mul_comm]
  field_simp

theorem sqrt_two_pi_pos : 0 < Real.sqrt (2 * Real.pi) :=
  Real.sqrt_pos.mpr (by positivity)

theorem stdNormSF_nonneg (t : ℝ) : 0 ≤ stdNormSF t :=
  div_nonneg
    (MeasureTheory.setIntegral_nonneg measurableSet_Ici fun _ _ => (Real.exp_pos _).le)
    sqrt_two_pi_pos.le

theorem stdNormSF_le_one (t : ℝ) : stdNormSF t ≤ 1 := by
  rw [stdNormSF, div_le_one sqrt_two_pi_pos]
  calc (∫ u in Set.Ici t, Real.exp (-u ^ 2 / 2))
      ≤ ∫ u : ℝ, Real.exp (-u ^ 2 / 2) :=
        MeasureTheory.setIntegral_le_integral gaussian_integrable
          (Filter.Eventually.of_forall fun _ => (Real.exp_pos _).le)
    _ = Real.sqrt (2 * Real.pi) := gaussian_total

theorem stdNormSF_antitone {a b : ℝ} (h : a ≤ b) : stdNormSF b ≤ stdNormSF a := by
  rw [stdNormSF, stdNormSF]
  apply (div_le_div_iff_of_pos_right sqrt_two_pi_pos).mpr
  apply MeasureTheory.setIntegral_mono_set gaussian_integrable.integrableOn
    (Filter.Eventually.of_forall fun _ => (Real.exp_pos _).le)
  exact (Set.Ici_subset_Ici.mpr h).eventuallyLE

theorem stdNormSF_strictAnti {a b : ℝ} (h : a < b) : stdNormSF b < stdNormSF a := by
  rw [stdNormSF, stdNormSF]
  apply (div_lt_div_iff_of_pos_right sqrt_two_pi_pos).mpr
  have hdisj : Disjoint (Set.Ico a b) (Set.Ici b) := by
    apply Set.disjoint_left.mpr
    intro x hx hx2
    exact absurd hx.2 (not_lt.mpr hx2)
  have hsplit : (∫ u in Set.Ici a, Real.exp (-u ^ 2 / 2))
      = (∫ u in Set.Ico a b, Real.exp (-u ^ 2 / 2))
        + ∫ u in Set.Ici b, Real.exp (-u ^ 2 / 2) := by
    rw [← Set.Ico_union_Ici_eq_Ici (le_of_lt h)]
    exact MeasureTheory.setIntegral_union hdisj measurableSet_Ici
      gaussian_integrable.integrableOn gaussian_integrable.integrableOn
  have hpos : 0 < ∫ u in Set.Ico a b, Real.exp (-u ^ 2 / 2) := by
    rw [MeasureTheory.integral_Ico_eq_integral_Ioo,
      ← MeasureTheory.integral_Ioc_eq_integral_Ioo,
      ← intervalIntegral.integral_of_le (le_of_lt h)]
    exact intervalIntegral.intervalIntegral_pos_of_pos_on
      gaussian_integrable.intervalIntegrable (fun x _ => Real.exp_pos _) h
  linarith

/-- Scaling-relation parameters pulled out of `scalingRelationDict` in
`calcCompleteness`: `tenToA0`, `B0`, `Mpivot`, `sigma_int`. -/
structure ScalingRelation where
  tenToA0 : ℝ
  B0 : ℝ
  Mpivot : ℝ
  sigma_int : ℝ

/-- The external grid state of a `MockSurvey` object as consumed by
`calcCompleteness`: the redshift and `log10(M)` axes, `Ez` per redshift
index, and the `theta500` / `fRel` spline evaluators per redshift index
(opaque external collaborators). -/
structure SurveyGrid where
  z : List ℝ
  log10M : List ℝ
  Ez : ℕ → ℝ
  theta500 : ℕ → ℝ → ℝ
  fRel : ℕ → ℝ → ℝ

/-- The "true" Compton signal on the grid (`true_y0s_zk` in the source):
`tenToA0 * Ez[k]^2 * (10^log10M/Mpivot)^(1+B0) * Q(theta500) * fRel`. -/
noncomputable def trueY0 (sr : ScalingRelation) (g : SurveyGrid) (Q : ℝ → ℝ)
    (k : ℕ) (m : ℝ) : ℝ :=
  sr.tenToA0 * g.Ez k ^ 2 * ((10 : ℝ) ^ m / sr.Mpivot) ^ (1 + sr.B0)
    * Q (g.theta500 k m) * g.fRel k m

/-- The numerical guard `y0Grid[y0Grid <= 0] = 1e-9`. -/
noncomputable def clampY0 (y : ℝ) : ℝ :=
  if y ≤ 0 then 1 / 1000000000 else y

/-- Entry `(k, j)` of the clamped signal grid `y0Grid`. -/
noncomputable def y0Grid (sr : ScalingRelation) (g : SurveyGrid) (Q : ℝ → ℝ)
    (k j : ℕ) : ℝ :=
  clampY0 (trueY0 sr g Q k (g.log10M.getD j 0))

/-- The log-signal measurement error: `1/SNR`, floored at `1/SNRCut`
wherever `SNR < SNRCut` (`log_y0Err[SNRGrid < SNRCut]=1/SNRCut`). -/
noncomputable def errFloor (SNRCut snr : ℝ) : ℝ :=
  if snr < SNRCut then 1 / SNRCut else 1 / snr

/-- The total log-signal error
`sqrt(log_y0Err**2 + sigma_int**2)`. -/
noncomputable def totalErr (SNRCut sigma_int snr : ℝ) : ℝ :=
  Real.sqrt (errFloor SNRCut snr ^ 2 + sigma_int ^ 2)

/-- Sum of the `areaDeg2` column of a real-valued noise table. -/
noncomputable def totalAreaR (tab : List (RMSRow ℝ)) : ℝ :=
  (tab.map (fun r => r.areaDeg2)).sum

/-- One cell of the "fast" completeness surface: the survival probability of
the detection threshold `log(SNRCut*y0RMS)` under mean `log(y0)` and the
total log error, accumulated over the noise rows with area weights
`areaDeg2/sum(areaDeg2)`. -/
noncomputable def compCell (tab : List (RMSRow ℝ)) (SNRCut sigma_int y0 : ℝ) : ℝ :=
  (tab.map (fun r =>
    normSF (Real.log (SNRCut * r.y0RMS)) (Real.log y0)
        (totalErr SNRCut sigma_int (y0 / r.y0RMS))
      * (r.areaDeg2 / totalAreaR tab))).sum

/-- The redshift value of output row `i`: with `z=None` the row's own grid
value, with a given `z` the grid value nearest to it
(`zRange=mockSurvey.z[zIndex:zIndex+1]`). -/
noncomputable def zSel (g : SurveyGrid) (singleZ : Option ℝ) (i : ℕ) : ℝ :=
  match singleZ with
  | none => g.z.getD i 0
  | some zv => g.z.getD (argminIdx (g.z.map (fun zz => |zz - zv|))) 0

/-- The grid redshift index `k=np.argmin(abs(mockSurvey.z-zk))` used for
row `i` of the fast surface. -/
noncomputable def kIdx (g : SurveyGrid) (singleZ : Option ℝ) (i : ℕ) : ℕ :=
  argminIdx (g.z.map (fun zz => |zz - zSel g singleZ i|))

/-- The full "fast"-method completeness surface of `calcCompleteness`, as a
function of (row index, mass index). -/
noncomputable def calcCompletenessFast (tab : List (RMSRow ℝ)) (SNRCut : ℝ)
    (sr : ScalingRelation) (g : SurveyGrid) (Q : ℝ → ℝ) (singleZ : Option ℝ) :
    ℕ → ℕ → ℝ :=
  fun i j => compCell tab SNRCut sr.sigma_int (y0Grid sr g Q (kIdx g singleZ i) j)

/-- The ways `calcCompleteness` can fail: the `NameError` on the undefined
`y0Noise` in the Monte Carlo branch, an `IndexError` on a degenerate grid
(`log10M[1]` / `z[1]`), and the explicit unsupported-method exception. -/
inductive CalcError where
  | nameError (n : String)
  | indexError
  | unsupportedMethod (m : String)
deriving DecidableEq, Repr

/-- `calcCompleteness(RMSTab, SNRCut, ..., method, numDraws, numIterations)`
from `nemo/completeness.py`.  The `"Monte Carlo"` branch first computes the
half bin widths `log10M[1]-log10M[0]` and `z[1]-z[0]` (an `IndexError` on
axes shorter than 2), then enters the iteration loop whose first statement
references the undefined name `y0Noise` — a `NameError` whenever at least
one iteration runs; with `numIterations=0` the loop body never runs,
`allMz` stays zero, and `compMz` remains the all-ones array.  The `"fast"`
branch returns the analytic surface; any other method name raises the
unsupported-method exception. -/
noncomputable def calcCompleteness (tab : List (RMSRow ℝ)) (SNRCut : ℝ)
    (sr : ScalingRelation) (g : SurveyGrid) (Q : ℝ → ℝ) (singleZ : Option ℝ)
    (method : String) (numIterations : ℕ) : Except CalcError (ℕ → ℕ → ℝ) :=
  if method = "Monte Carlo" then
    if g.log10M.length < 2 ∨ g.z.length < 2 then .error .indexError
    else if numIterations = 0 then .ok (fun _ _ => 1)
    else .error (.nameError "y0Noise")
  else if method = "fast" then .ok (calcCompletenessFast tab SNRCut sr g Q singleZ)
  else .error (.unsupportedMethod method)

theorem list_sum_div (l : List ℝ) (c : ℝ) :
    (l.map (fun x => x / c)).sum = l.sum / c := by
  induction l with
  | nil => simp
  | cons a t ih => rw [List.map_cons, List.sum_cons, List.sum_cons, ih, add_div]

theorem weights_sum_to_one (tab : List (RMSRow ℝ)) (hT : 0 < totalAreaR tab) :
    (tab.map (fun r => r.areaDeg2 / totalAreaR tab)).sum = 1 := by
  have h : tab.map (fun r => r.areaDeg2 / totalAreaR tab)
      = (tab.map (fun r => r.areaDeg2)).map (fun x => x / totalAreaR tab) := by
    rw [List.map_map]
    rfl
  rw [h, list_sum_div]
  exact div_self (ne_of_gt hT)

theorem compCell_nonneg (tab : List (RMSRow ℝ)) (SNRCut sigma_int y0 : ℝ)
    (hA : ∀ r ∈ tab, 0 ≤ r.areaDeg2) (hT : 0 ≤ totalAreaR tab) :
    0 ≤ compCell tab SNRCut sigma_int y0 := by
  apply List.sum_nonneg
  intro x hx
  rcases List.mem_map.mp hx with ⟨r, hr, hrx⟩
  rw [← hrx]
  exact mul_nonneg (stdNormSF_nonneg _) (div_nonneg (hA r hr) hT)

theorem compCell_le_one (tab : List (RMSRow ℝ)) (SNRCut sigma_int y0 : ℝ)
    (hA : ∀ r ∈ tab, 0 ≤ r.areaDeg2) (hT : 0 < totalAreaR tab) :
    compCell tab SNRCut sigma_int y0 ≤ 1 := by
  rw [compCell]
  calc (tab.map (fun r =>
        normSF (Real.log (SNRCut * r.y0RMS)) (Real.log y0)
            (totalErr SNRCut sigma_int (y0 / r.y0RMS))
          * (r.areaDeg2 / totalAreaR tab))).sum
      ≤ (tab.map (fun r => r.areaDeg2 / totalAreaR tab)).sum := by
        apply List.sum_le_sum
        intro r hr
        exact mul_le_of_le_one_left (div_nonneg (hA r hr) hT.le) (stdNormSF_le_one _)
    _ = 1 := weights_sum_to_one tab hT

/-- Claim C1: for every noise table with nonnegative areas of positive sum,
every `SNRCut > 0`, and every scaling relation with real amplitude, slope
and pivot mass and nonnegative intrinsic scatter, `calcCompleteness` with
method `"fast"` returns a surface every entry of which lies in `[0, 1]`:
each cell is a convex combination (area weights summing to one) of normal
survival probabilities, each of which lies in `[0, 1]`. -/
theorem c1_completeness_in_unit_interval (tab : List (RMSRow ℝ)) (SNRCut : ℝ)
    (sr : ScalingRelation) (g : SurveyGrid) (Q : ℝ → ℝ) (singleZ : Option ℝ)
    (numIterations : ℕ) (hS : 0 < SNRCut) (hsig : 0 ≤ sr.sigma_int)
    (hA : ∀ r ∈ tab, 0 ≤ r.areaDeg2) (hT : 0 < totalAreaR tab) :
    ∃ surf, calcCompleteness tab SNRCut sr g Q singleZ "fast" numIterations = .ok surf
      ∧ ∀ i j, 0 ≤ surf i j ∧ surf i j ≤ 1 := by
  refine ⟨calcCompletenessFast tab SNRCut sr g Q singleZ, ?_, ?_⟩
  · rw [calcCompleteness, if_neg (by simp), if_pos rfl]
  · intro i j
    constructor
    · exact compCell_nonneg _ _ _ _ hA hT.le
    · exact compCell_le_one _ _ _ _ hA hT

/-- Claim C1, witness: a concrete one-row noise table with area 1,
`SNRCut = 5`, and trivial external splines. -/
theorem c1_witness :
    ∃ surf, calcCompleteness [⟨1, 1⟩] 5 ⟨1, 1, 1, 0⟩
        ⟨[0], [0], fun _ => 1, fun _ m => m, fun _ _ => 1⟩ (fun _ => 1) none "fast" 100
        = .ok surf
      ∧ ∀ i j, 0 ≤ surf i j ∧ surf i j ≤ 1 := by
  apply c1_completeness_in_unit_interval
  · norm_num
  · norm_num
  · intro r hr
    rcases List.mem_singleton.mp hr with rfl
    norm_num
  · norm_num [totalAreaR]

theorem errFloor_pos (SNRCut snr : ℝ) (hS : 0 < SNRCut) (hsnr : 0 < snr) :
    0 < errFloor SNRCut snr := by
  rw [errFloor]
  split
  · positivity
  · positivity

theorem totalErr_pos (SNRCut sigma_int snr : ℝ) (hS : 0 < SNRCut) (hsnr : 0 < snr) :
    0 < totalErr SNRCut sigma_int snr := by
  rw [totalErr]
  apply Real.sqrt_pos.mpr
  have h := errFloor_pos SNRCut snr hS hsnr
  positivity

theorem clampY0_pos (y : ℝ) : 0 < clampY0 y := by
  rw [clampY0]
  split
  · norm_num
  · linarith [not_le.mp (by assumption)]

/-- Core monotonicity of one noise-row contribution of the fast method: for
a fixed noise level `R > 0` and threshold `log(SNRCut*R)`, the survival
probability is non-decreasing in the (positive) true signal `y`.  Below the
cut the error is floored at `1/SNRCut` (fixed denominator, growing mean);
above the cut the mean exceeds the threshold while the error `1/SNR`
shrinks; across the boundary the standardized argument changes sign. -/
theorem rowSF_mono (SNRCut R sigma_int y yp : ℝ) (hS : 0 < SNRCut) (hR : 0 < R)
    (hy : 0 < y) (hyy : y ≤ yp) :
    normSF (Real.log (SNRCut * R)) (Real.log y) (totalErr SNRCut sigma_int (y / R))
      ≤ normSF (Real.log (SNRCut * R)) (Real.log yp) (totalErr SNRCut sigma_int (yp / R)) := by
  have hyp : 0 < yp := lt_of_lt_of_le hy hyy
  have hsnr : 0 < y / R := div_pos hy hR
  have hsnrp : 0 < yp / R := div_pos hyp hR
  have hsig : 0 < totalErr SNRCut sigma_int (y / R) := totalErr_pos _ _ _ hS hsnr
  have hsigp : 0 < totalErr SNRCut sigma_int (yp / R) := totalErr_pos _ _ _ hS hsnrp
  have hlog : Real.log y ≤ Real.log yp := Real.log_le_log hy hyy
  rw [normSF, normSF]
  apply stdNormSF_antitone
  by_cases hcp : yp / R < SNRCut
  · -- both rows floored: same denominator, larger mean
    have hc : y / R < SNRCut := lt_of_le_of_lt (by gcongr) hcp
    have heq : totalErr SNRCut sigma_int (yp / R) = totalErr SNRCut sigma_int (y / R) := by
      rw [totalErr, totalErr, errFloor, errFloor, if_pos hc, if_pos hcp]
    rw [heq]
    apply (div_le_div_iff_of_pos_right hsig).mpr
    linarith
  · -- yp at or above the cut
    have hxp : Real.log (SNRCut * R) ≤ Real.log yp := by
      apply Real.log_le_log (by positivity)
      rw [not_lt] at hcp
      calc SNRCut * R ≤ yp / R * R := by gcongr
        _ = yp := by field_simp
    by_cases hc : y / R < SNRCut
    · -- y below the cut: its argument is positive, yp's is nonpositive
      have hx : Real.log y < Real.log (SNRCut * R) := by
        apply Real.log_lt_log hy
        calc y = y / R * R := by field_simp
          _ < SNRCut * R := by gcongr
      exact le_trans (div_nonpos_iff.mpr (Or.inr ⟨by linarith, hsigp.le⟩))
        (div_nonneg (by linarith) hsig.le)
    · -- both at or above the cut: nonpositive numerators, shrinking denominator
      have hx : Real.log (SNRCut * R) ≤ Real.log y := by
        apply Real.log_le_log (by positivity)
        rw [not_lt] at hc
        calc SNRCut * R ≤ y / R * R := by gcongr
          _ = y := by field_simp
      have hsigle : totalErr SNRCut sigma_int (yp / R) ≤ totalErr SNRCut sigma_int (y / R) := by
        rw [totalErr, totalErr, errFloor, errFloor, if_neg hc, if_neg hcp]
        apply Real.sqrt_le_sqrt
        have h1 : 1 / (yp / R) ≤ 1 / (y / R) := by gcongr
        have h2 : 0 ≤ 1 / (yp / R) := by positivity
        nlinarith
      calc (Real.log (SNRCut * R) - Real.log yp) / totalErr SNRCut sigma_int (yp / R)
          ≤ (Real.log (SNRCut * R) - Real.log yp) / totalErr SNRCut sigma_int (y / R) := by
            rw [div_le_div_iff hsigp hsig]
            apply mul_le_mul_of_nonpos_left hsigle (by linarith)
        _ ≤ (Real.log (SNRCut * R) - Real.log y) / totalErr SNRCut sigma_int (y / R) := by
            apply (div_le_div_iff_of_pos_right hsig).mpr
            linarith

theorem compCell_mono (tab : List (RMSRow ℝ)) (SNRCut sigma_int y yp : ℝ)
    (hS : 0 < SNRCut) (hRall : ∀ r ∈ tab, 0 < r.y0RMS) (hA : ∀ r ∈ tab, 0 ≤ r.areaDeg2)
    (hy : 0 < y) (hyy : y ≤ yp) :
    compCell tab SNRCut sigma_int y ≤ compCell tab SNRCut sigma_int yp := by
  have hT : 0 ≤ totalAreaR tab := by
    apply List.sum_nonneg
    intro x hx
    rcases List.mem_map.mp hx with ⟨r, hr, hrx⟩
    exact hrx ▸ hA r hr
  apply List.sum_le_sum
  intro r hr
  apply mul_le_mul_of_nonneg_right (rowSF_mono SNRCut r.y0RMS sigma_int y yp hS (hRall r hr) hy hyy)
  exact div_nonneg (hA r hr) hT

/-- Claim C4, amended: for a noise table with positive noise levels and
nonnegative areas, `SNRCut > 0`, and a scaling relation with positive
amplitude and positive mass slope, the fast completeness surface is monotone
non-decreasing along the mass axis at fixed redshift PROVIDED the clamped
true-signal profile `y0Grid` is itself non-decreasing along the mass axis at
that redshift.  The positivity of amplitude and slope alone does not
guarantee this, because the filter response `Q` and `fRel` splines enter the
signal (see the counterexample). -/
theorem c4_monotone_of_y0_monotone (tab : List (RMSRow ℝ)) (SNRCut : ℝ)
    (sr : ScalingRelation) (g : SurveyGrid) (Q : ℝ → ℝ) (singleZ : Option ℝ)
    (numIterations : ℕ) (i j j' : ℕ) (hS : 0 < SNRCut)
    (hA0 : 0 < sr.tenToA0) (hB0 : 0 < sr.B0)
    (hRall : ∀ r ∈ tab, 0 < r.y0RMS) (hA : ∀ r ∈ tab, 0 ≤ r.areaDeg2)
    (hjj : j ≤ j')
    (hMono : y0Grid sr g Q (kIdx g singleZ i) j ≤ y0Grid sr g Q (kIdx g singleZ i) j') :
    ∃ surf, calcCompleteness tab SNRCut sr g Q singleZ "fast" numIterations = .ok surf
      ∧ surf i j ≤ surf i j' := by
  refine ⟨calcCompletenessFast tab SNRCut sr g Q singleZ, ?_, ?_⟩
  · rw [calcCompleteness, if_neg (by simp), if_pos rfl]
  · exact compCell_mono tab SNRCut sr.sigma_int _ _ hS hRall hA (clampY0_pos _) hMono

/-- Claim C4, witness for the amended statement: with a degenerate mass axis
`[0, 0]` the clamped profile is trivially non-decreasing, and the surface
is monotone between the two columns. -/
theorem c4_witness :
    ∃ surf, calcCompleteness [⟨1, 1⟩] 5 ⟨1, 1, 1, 0⟩
        ⟨[0], [0, 0], fun _ => 1, fun _ m => m, fun _ _ => 1⟩ (fun _ => 1) none "fast" 100
        = .ok surf
      ∧ surf 0 0 ≤ surf 0 1 := by
  apply c4_monotone_of_y0_monotone
  · norm_num
  · norm_num
  · norm_num
  · intro r hr
    rcases List.mem_singleton.mp hr with rfl
    norm_num
  · intro r hr
    rcases List.mem_singleton.mp hr with rfl
    norm_num
  · norm_num
  · exact le_of_eq rfl

/-- Counterexample filter-response spline: large response at cluster scale
`0`, tiny response at scale `1` (a decreasing `Q`, as real fitted `Q`
splines are beyond their peak). -/
noncomputable def cexQ : ℝ → ℝ := fun t => if t = 0 then Real.exp 1 else 1 / 100

/-- Counterexample grid: two redshifts, two masses, trivial `Ez` and
`fRel`, `theta500` equal to the mass coordinate. -/
noncomputable def cexGrid : SurveyGrid :=
  ⟨[0, 1], [0, 1], fun _ => 1, fun _ m => m, fun _ _ => 1⟩

/-- Counterexample scaling relation: amplitude `1 > 0`, mass slope `1 > 0`,
pivot `1`, no intrinsic scatter. -/
noncomputable def cexSr : ScalingRelation := ⟨1, 1, 1, 0⟩

theorem cex_kIdx : kIdx cexGrid none 0 = 0 := by
  have hmap : cexGrid.z.map (fun zz => |zz - zSel cexGrid none 0|) = [0, 1] := by
    show ([0, 1] : List ℝ).map (fun zz => |zz - zSel cexGrid none 0|) = [0, 1]
    have hz : zSel cexGrid none 0 = 0 := rfl
    rw [hz]
    norm_num
  rw [kIdx, hmap]
  show ([0, 1] : List ℝ).findIdx (fun y => decide (y = ([1] : List ℝ).foldl min 0)) = 0
  have hmin : (([1] : List ℝ).foldl min 0) = 0 := by
    show min (0 : ℝ) 1 = 0
    exact min_eq_left zero_le_one
  rw [hmin, List.findIdx_cons]
  simp

theorem cex_y0_at_0 : y0Grid cexSr cexGrid cexQ 0 0 = Real.exp 1 := by
  rw [y0Grid]
  have hm : cexGrid.log10M.getD 0 0 = 0 := rfl
  rw [hm, trueY0]
  have h1 : ((10 : ℝ) ^ (0 : ℝ) / cexSr.Mpivot) ^ (1 + cexSr.B0) = 1 := by
    rw [Real.rpow_zero]
    show ((1 : ℝ) / 1) ^ ((1 : ℝ) + 1) = 1
    rw [div_one, Real.one_rpow]
  rw [h1]
  have hQ : cexQ (cexGrid.theta500 0 0) = Real.exp 1 := by
    show (if (0 : ℝ) = 0 then Real.exp 1 else 1 / 100) = Real.exp 1
    exact if_pos rfl
  rw [hQ]
  rw [show cexSr.tenToA0 * cexGrid.Ez 0 ^ 2 * 1 * Real.exp 1 * cexGrid.fRel 0 0
      = Real.exp 1 from by norm_num [cexSr, cexGrid]]
  rw [clampY0, if_neg (not_le.mpr (Real.exp_pos 1))]

theorem cex_y0_at_1 : y0Grid cexSr cexGrid cexQ 0 1 = 1 := by
  rw [y0Grid]
  have hm : cexGrid.log10M.getD 1 0 = 1 := rfl
  rw [hm, trueY0]
  have h1 : ((10 : ℝ) ^ (1 : ℝ) / cexSr.Mpivot) ^ (1 + cexSr.B0) = 100 := by
    rw [Real.rpow_one]
    show ((10 : ℝ) / 1) ^ ((1 : ℝ) + 1) = 100
    rw [div_one, show ((1 : ℝ) + 1) = ((2 : ℕ) : ℝ) from by norm_num, Real.rpow_natCast]
    norm_num
  rw [h1]
  have hQ : cexQ (cexGrid.theta500 0 1) = 1 / 100 := by
    show (if (1 : ℝ) = 0 then Real.exp 1 else 1 / 100) = 1 / 100
    rw [if_neg (by norm_num)]
  rw [hQ]
  rw [show cexSr.tenToA0 * cexGrid.Ez 0 ^ 2 * 100 * (1 / 100) * cexGrid.fRel 0 1
      = 1 from by norm_num [cexSr, cexGrid]]
  rw [clampY0, if_neg (by norm_num)]

theorem cex_compCell_one : compCell [⟨1, 1⟩] 1 0 1 = stdNormSF 0 := by
  rw [compCell]
  simp only [List.map_cons, List.map_nil, List.sum_cons, List.sum_nil]
  have hT : totalAreaR [(⟨1, 1⟩ : RMSRow ℝ)] = 1 := by norm_num [totalAreaR]
  rw [hT]
  have hE : totalErr 1 0 ((1 : ℝ) / 1) = 1 := by
    rw [totalErr, errFloor]
    norm_num
  rw [hE, normSF]
  norm_num

theorem cex_compCell_e : compCell [⟨1, 1⟩] 1 0 (Real.exp 1) = stdNormSF (-(Real.exp 1)) := by
  have he1 : (1 : ℝ) < Real.exp 1 := by
    have := Real.exp_one_gt_d9
    linarith
  rw [compCell]
  simp only [List.map_cons, List.map_nil, List.sum_cons, List.sum_nil]
  have hT : totalAreaR [(⟨1, 1⟩ : RMSRow ℝ)] = 1 := by norm_num [totalAreaR]
  rw [hT]
  have hE : totalErr 1 0 (Real.exp 1 / 1) = 1 / Real.exp 1 := by
    rw [totalErr, errFloor, div_one, if_neg (not_lt.mpr he1.le)]
    rw [show (1 / Real.exp 1) ^ 2 + (0 : ℝ) ^ 2 = (1 / Real.exp 1) ^ 2 from by ring]
    exact Real.sqrt_sq (by positivity)
  rw [hE, normSF, one_mul, Real.log_one, Real.log_exp]
  rw [show ((0 : ℝ) - 1) / (1 / Real.exp 1) = -(Real.exp 1) from by field_simp]
  norm_num

/-- Claim C4, counterexample: a concrete noise table, `SNRCut`, and scaling
relation with positive amplitude and positive mass slope for which the fast
completeness surface strictly DECREASES along the (increasing) mass axis:
the decreasing filter response `Q` drives the true signal down with mass, so
positivity of the scaling-relation slope alone does not make the surface
monotone. -/
theorem c4_counterexample :
    0 < cexSr.tenToA0 ∧ 0 < cexSr.B0
      ∧ cexGrid.log10M.getD 0 0 < cexGrid.log10M.getD 1 0
      ∧ ∃ surf, calcCompleteness [⟨1, 1⟩] 1 cexSr cexGrid cexQ none "fast" 100 = .ok surf
          ∧ surf 0 1 < surf 0 0 := by
  refine ⟨by norm_num [cexSr], by norm_num [cexSr], by norm_num [cexGrid],
    calcCompletenessFast [⟨1, 1⟩] 1 cexSr cexGrid cexQ none, ?_, ?_⟩
  · rw [calcCompleteness, if_neg (by simp), if_pos rfl]
  · show compCell [⟨1, 1⟩] 1 cexSr.sigma_int (y0Grid cexSr cexGrid cexQ (kIdx cexGrid none 0) 1)
      < compCell [⟨1, 1⟩] 1 cexSr.sigma_int (y0Grid cexSr cexGrid cexQ (kIdx cexGrid none 0) 0)
    rw [show cexSr.sigma_int = 0 from rfl, cex_kIdx, cex_y0_at_1, cex_y0_at_0,
      cex_compCell_one, cex_compCell_e]
    exact stdNormSF_strictAnti (neg_lt_zero.mpr (Real.exp_pos 1))

/-- Claim C7: the `"Monte Carlo"` branch of `calcCompleteness` cannot
return a completeness surface.  Its loop body's first statement,
`tab=mockSurvey.drawSample(y0Noise, ...)`, references `y0Noise`, a name
that is neither a parameter of `calcCompleteness` nor assigned anywhere in
its scope, so every call that enters the loop (any `numIterations >= 1`;
the default is 100) raises a `NameError` before any histogramming can
occur. -/
theorem c7_monte_carlo_name_error (tab : List (RMSRow ℝ)) (SNRCut : ℝ)
    (sr : ScalingRelation) (g : SurveyGrid) (Q : ℝ → ℝ) (singleZ : Option ℝ)
    (numIterations : ℕ) (h2m : 2 ≤ g.log10M.length) (h2z : 2 ≤ g.z.length)
    (hIter : 1 ≤ numIterations) :
    calcCompleteness tab SNRCut sr g Q singleZ "Monte Carlo" numIterations
      = .error (.nameError "y0Noise") := by
  rw [calcCompleteness, if_pos rfl, if_neg (by omega), if_neg (by omega)]

/-- Claim C7, witness: a concrete Monte Carlo call with the default
`numIterations = 100` raises the `NameError`. -/
theorem c7_witness :
    calcCompleteness [⟨1, 1⟩] 5 ⟨1, 1, 1, 0⟩
        ⟨[0, 1], [0, 1], fun _ => 1, fun _ m => m, fun _ _ => 1⟩ (fun _ => 1) none
        "Monte Carlo" 100
      = .error (.nameError "y0Noise") := by
  apply c7_monte_carlo_name_error
  · norm_num
  · norm_num
  · norm_num
